import Mathlib

/-!
Verification of the luckycoin-cli mining client: a shallow embedding of the
parallel hash search in `src/mine.rs` and of the transaction submission
protocol in `src/send_and_confirm.rs`, with theorems settling the spec's
claims about them.

Machine integers of the source (`u64`, `u32`) are modelled as `Nat` with
explicit saturation at `2^64 - 1` where the source uses saturating
arithmetic; overflow never occurs in the proved regimes.
-/

namespace Luckycoin

/-! ## Worker search loop (`find_hash_par`, src/mine.rs lines 230-295)

A worker owns a starting nonce and repeatedly calls the difficulty oracle
(`drillx::hashes_with_memory` + `Hash::difficulty`), which for each nonce
yields a batch of candidate digests with difficulty scores.  The oracle is
opaque and deterministic, so it is a parameter `oracle : Nat → List Cand`.

Wall-clock time (`timer.elapsed().as_secs()`) and the value observed when
reading the shared global best difficulty (`*global_best_difficulty.read()`)
depend on the scheduler and on the other workers; they are modelled as
environment functions of the iteration counter: `elapsed k` is the elapsed
seconds at iteration `k` and `globalRead k` is the value the `RwLock` read
returns at iteration `k`.  The worker's own conditional write to the shared
value (lines 255-258) only influences what *other* threads observe, so it is
absorbed into the environment; it never changes the worker's local state. -/

/-- One candidate of a batch: the digest (opaque, an id) and its difficulty
(`hx.difficulty()`). -/
structure Cand where
  d : Nat
  difficulty : Nat
  deriving DecidableEq, Repr

/-- A worker's local best: `(best_nonce, best_difficulty, best_hash)` from
src/mine.rs lines 237-239. -/
structure Best where
  nonce : Nat
  difficulty : Nat
  hash : Nat
  deriving DecidableEq, Repr

/-- The batch scan of src/mine.rs lines 249-260: for each candidate `hx` in
order, if its difficulty strictly exceeds the local best, the local best
becomes `(nonce, difficulty, hx.d)`. -/
def scanBatch (nonce : Nat) : List Cand → Best → Best
  | [], b => b
  | hx :: rest, b =>
      scanBatch nonce rest (if hx.difficulty > b.difficulty then ⟨nonce, hx.difficulty, hx.d⟩ else b)

/-- The worker loop of src/mine.rs lines 240-291, with explicit fuel (the
source loop is unbounded).  Each iteration scans the batch at the current
nonce, then, exactly when `nonce % 100 == 0`, reads the shared global best
and the timer and breaks iff `elapsed ≥ cutoff_time` and the read global
best `≥ min_difficulty`; otherwise the nonce is incremented and the loop
continues.  Returns `some (exit iteration, exit nonce, final best)` when the
loop breaks within the fuel, `none` otherwise. -/
def workerLoop (oracle : Nat → List Cand) (elapsed globalRead : Nat → Nat)
    (cutoff_time min_difficulty : Nat) :
    Nat → Nat → Nat → Best → Option (Nat × Nat × Best)
  | 0, _, _, _ => none
  | fuel + 1, iter, nonce, b =>
      let b' := scanBatch nonce (oracle nonce) b
      if nonce % 100 = 0 ∧ cutoff_time ≤ elapsed iter ∧ min_difficulty ≤ globalRead iter then
        some (iter, nonce, b')
      else
        workerLoop oracle elapsed globalRead cutoff_time min_difficulty fuel (iter + 1) (nonce + 1) b'

/-- Maximum difficulty in a batch of candidates. -/
def batchMax : List Cand → Nat
  | [] => 0
  | hx :: rest => max hx.difficulty (batchMax rest)

/-- Maximum difficulty over the batches at nonces `start, start+1, ...,
start+len-1`: the difficulties a worker observes while scanning that range. -/
def rangeOracleMax (oracle : Nat → List Cand) (start : Nat) : Nat → Nat
  | 0 => 0
  | len + 1 => max (batchMax (oracle start)) (rangeOracleMax oracle (start + 1) len)

/-! ## Aggregation (`find_hash_par`, src/mine.rs lines 300-321)

After joining, the coordinator folds over the workers' returned triples in
enumeration order, starting from `best_nonce = 0`, `best_difficulty = 0`,
`best_hash = Hash::default()` (modelled as digest `0`), replacing the
running best only on strict `difficulty > best_difficulty`.  Join failures
(`if let Ok(..)`) are skipped, so the input is the list of successfully
joined results. -/

/-- The join fold of src/mine.rs lines 304-312. -/
def joinBest : List Best → Best → Best
  | [], acc => acc
  | r :: rest, acc => joinBest rest (if r.difficulty > acc.difficulty then r else acc)

/-- The aggregated best of `find_hash_par`: fold the joined worker results
over the seed `(0, 0, Hash::default())` (lines 301-303). -/
def aggregateBest (rs : List Best) : Best :=
  joinBest rs ⟨0, 0, 0⟩

/-- The returned value `Solution::new(best_hash.d, best_nonce.to_le_bytes())`
(line 321), as the pair (digest, nonce). -/
def findHashParSolution (rs : List Best) : Nat × Nat :=
  ((aggregateBest rs).hash, (aggregateBest rs).nonce)

/-- Maximum of the workers' final local best difficulties. -/
def maxDifficulty : List Best → Nat
  | [] => 0
  | r :: rest => max r.difficulty (maxDifficulty rest)

/-! ## Nonce partitioning (src/mine.rs lines 96-101 and 160-169)

`u64` arithmetic: `saturating_div` on unsigned integers is plain division
(the divisor is nonzero in every proved regime; Rust panics at zero),
`saturating_mul` caps at `u64::MAX`.  The pooled mode's `left_bound + n *
range_per_core` uses plain `u64` `+`/`*`; in the proved regime the result
stays below `2^64`, so plain `Nat` arithmetic is faithful. -/

/-- `u64::MAX`. -/
def U64MAX : Nat := 2 ^ 64 - 1

/-- `u64::saturating_mul`. -/
def satMul64 (a b : Nat) : Nat := min (a * b) U64MAX

/-- Solo-mode starting nonces (src/mine.rs lines 97-101):
worker `n` starts at `u64::MAX.saturating_div(cores).saturating_mul(n)`. -/
def soloNonceIndices (cores : Nat) : List Nat :=
  (List.range cores).map (fun n => satMul64 (U64MAX / cores) n)

/-- Pooled-mode starting nonces (src/mine.rs lines 161-169): with
`u64_unit = u64::MAX.saturating_div(num_total_members)`,
`left_bound = u64_unit.saturating_mul(nonce_index)` and
`range_per_core = u64_unit.saturating_div(cores)`, worker `n` starts at
`left_bound + n * range_per_core`. -/
def poolNonceIndices (num_total_members nonce_index cores : Nat) : List Nat :=
  let u64_unit := U64MAX / num_total_members
  let left_bound := satMul64 u64_unit nonce_index
  let range_per_core := u64_unit / cores
  (List.range cores).map (fun n => left_bound + n * range_per_core)

/-- A worker's intended contiguous block: `start ≤ x < start + width`. -/
def inBlock (start width x : Nat) : Prop := start ≤ x ∧ x < start + width

/-! ## Thread spawning (`find_hash_par`, src/mine.rs lines 220-228, 324-331)

`core_affinity::get_core_ids()` yields the machine's core ids; the iterator
is filtered by `id.id < cores as usize` and one thread is spawned per
remaining id (each reading `nonce_indices[i.id]`).  `check_num_cores` prints
a warning when `cores > num_cpus::get()` and returns either way. -/

/-- The filtered core-id list of src/mine.rs line 222. -/
def filteredCoreIds (coreIds : List Nat) (cores : Nat) : List Nat :=
  coreIds.filter (fun id => id < cores)

/-- Number of worker threads spawned by `find_hash_par` (one per filtered
core id, line 223-226). -/
def numWorkersSpawned (coreIds : List Nat) (cores : Nat) : Nat :=
  (filteredCoreIds coreIds cores).length

/-- Whether `check_num_cores` prints its warning (src/mine.rs lines
324-331); the function returns normally in both cases. -/
def checkNumCoresWarns (cores num_cores : Nat) : Bool :=
  cores > num_cores

/-! ## Submission protocol (`send_and_confirm`, src/send_and_confirm.rs)

The protocol is a loop over attempts that signs (on a cadence), sends, and
polls confirmation.  Network responses are modelled as environment
functions indexed by call counters (one counter per endpoint), so the
machine is a deterministic function of the environment.  The
`LuckycoinError::NeedsReset` discriminant lives in the external
`luckycoin_api` crate; the machine is parametrised by its numeric value
`needsReset`, which no claim depends on.  The dynamic-fee refresh (lines
105-126) only rewrites the compute-unit-price instruction and never changes
the control flow, so it is not tracked in the machine state; the
instruction-list assembly itself is `assembleFinalIxs` below. -/

/-- Retry constants of src/send_and_confirm.rs lines 29-35. -/
def GATEWAY_RETRIES : Nat := 150

/-- `CONFIRM_RETRIES` (src/send_and_confirm.rs line 32). -/
def CONFIRM_RETRIES : Nat := 8

/-- `sol_to_lamports(MIN_SOL_BALANCE)` with `MIN_SOL_BALANCE = 0.005`
(line 27): `(0.005_f64 * 1e9) as u64 = 5_000_000` lamports. -/
def MIN_SOL_BALANCE_LAMPORTS : Nat := 5000000

/-- An instruction-level error: `InstructionError::Custom(code)` or any
other `InstructionError` variant. -/
inductive InstrErr where
  | custom (code : Nat)
  | nonCustom
  deriving DecidableEq, Repr

/-- A transaction error: `TransactionError::InstructionError(_, e)` or any
other `TransactionError` variant. -/
inductive TxErr where
  | instruction (e : InstrErr)
  | nonInstruction
  deriving DecidableEq, Repr

/-- `TransactionConfirmationStatus`. -/
inductive ConfStat where
  | processed
  | confirmed
  | finalized
  deriving DecidableEq, Repr

/-- One entry of `get_signature_statuses(...).value`: optional error and
optional confirmation status. -/
structure SigStatus where
  err : Option TxErr
  confirmation : Option ConfStat
  deriving DecidableEq, Repr

/-- The result of `send_and_confirm`: `Ok(sig)` or one of the produced
`ClientError`s, distinguished by the source site that builds them. -/
inductive SacResult where
  | ok (sig : Nat)
  | errCustomIx (code : Nat)
  | errNonCustomIx
  | errNonInstruction
  | errMaxRetries
  | errBlockhash
  deriving DecidableEq, Repr

/-- Outcome of scanning one `signature_statuses.value` list (the `for status
in ...` loop, lines 153-222). -/
inductive ScanOutcome where
  | fatal (r : SacResult)
  | success
  | reset
  | continueScan
  deriving DecidableEq, Repr

/-- Classification of a status error (lines 156-197): the `NeedsReset`
custom code breaks the confirm loop with `attempts = 0`; every other
custom code, every non-custom instruction error, and every non-instruction
error returns immediately. -/
def classifyStatusErr (needsReset : Nat) : TxErr → ScanOutcome
  | .instruction (.custom code) =>
      if code = needsReset then .reset else .fatal (.errCustomIx code)
  | .instruction .nonCustom => .fatal .errNonCustomIx
  | .nonInstruction => .fatal .errNonInstruction

/-- The status scan (lines 153-222): statuses are examined in order; an
error is classified (reset and fatal both stop the scan); `Confirmed` or
`Finalized` succeeds; `Processed`, absent statuses and absent confirmation
levels are skipped. -/
def scanStatuses (needsReset : Nat) : List (Option SigStatus) → ScanOutcome
  | [] => .continueScan
  | none :: rest => scanStatuses needsReset rest
  | some st :: rest =>
      match st.err with
      | some e =>
          match classifyStatusErr needsReset e with
          | .reset => .reset
          | o => o
      | none =>
          match st.confirmation with
          | some .processed => scanStatuses needsReset rest
          | some .confirmed => .success
          | some .finalized => .success
          | none => scanStatuses needsReset rest

/-- Network environment: `balance` is the `get_balance` result (`none` = the
query erred), `sendResult k` the `k`-th `send_transaction_with_config`
result, `pollResult k` the `k`-th `get_signature_statuses` result, and
`blockhashResult k` the `k`-th `get_latest_blockhash_with_retries` result
(`none` = its five internal retries were exhausted and it erred). -/
structure SacEnv where
  balance : Option Nat
  sendResult : Nat → Option Nat
  pollResult : Nat → Option (List (Option SigStatus))
  blockhashResult : Nat → Option Nat

/-- Outcome of the confirm loop `'confirm: for _ in 0..CONFIRM_RETRIES`
(lines 146-230): an early `return`, the `break 'confirm` of `NeedsReset`
(which also zeroes `attempts`), or falling through after all polls. -/
inductive ConfirmOutcome where
  | result (r : SacResult)
  | reset
  | exhausted
  deriving DecidableEq, Repr

/-- The confirm loop (lines 146-230), returning the advanced poll counter
with the outcome.  A failing status query (`Err`) is logged and polling
continues with the next slot. -/
def confirmLoop (needsReset : Nat) (env : SacEnv) (sig : Nat) :
    Nat → Nat → Nat × ConfirmOutcome
  | pollCount, 0 => (pollCount, .exhausted)
  | pollCount, remaining + 1 =>
      match env.pollResult pollCount with
      | none => confirmLoop needsReset env sig (pollCount + 1) remaining
      | some statuses =>
          match scanStatuses needsReset statuses with
          | .continueScan => confirmLoop needsReset env sig (pollCount + 1) remaining
          | .success => (pollCount + 1, .result (.ok sig))
          | .reset => (pollCount + 1, .reset)
          | .fatal r => (pollCount + 1, .result r)

/-- The mutable state of the outer attempt loop: the attempt counter plus
the environment call counters. -/
structure OuterState where
  attempts : Nat
  sendCount : Nat
  pollCount : Nat
  bhCount : Nat
  deriving DecidableEq, Repr

/-- The refresh cadence check `attempts % 10 == 0` (line 103): when it
holds, the transaction is re-signed with a fresh blockhash (and, in
dynamic-fee mode, a re-estimated fee). -/
def resignDue (attempts : Nat) : Bool :=
  attempts % 10 == 0

/-- The retry tail of the outer loop (lines 240-247): exceed
`GATEWAY_RETRIES` and the call returns the custom "Max retries" error,
otherwise the loop continues with the given state. -/
def retryCheck (st : OuterState) : OuterState ⊕ SacResult :=
  if st.attempts > GATEWAY_RETRIES then .inr .errMaxRetries else .inl st

/-- The refresh of lines 103-136: when `resignDue`, fetch a blockhash and
re-sign (in dynamic-fee mode the fee is also re-estimated, falling back to
the static value — it only rewrites the compute-unit-price instruction);
`get_latest_blockhash_with_retries(..)?` propagates its error out. -/
def refreshPhase (env : SacEnv) (st : OuterState) : Option OuterState :=
  if resignDue st.attempts then
    match env.blockhashResult st.bhCount with
    | none => none
    | some _ => some { st with bhCount := st.bhCount + 1 }
  else some st

/-- The send-and-confirm body of lines 139-247: increment `attempts`, send;
a send error falls to the retry tail; on send success either return
immediately (`skip_confirm`) or run the confirm loop, whose outcome
returns, restarts with `attempts = 0`, or falls to the retry tail. -/
def sendPhase (needsReset : Nat) (env : SacEnv) (skip_confirm : Bool)
    (st : OuterState) : OuterState ⊕ SacResult :=
  let attempts := st.attempts + 1
  match env.sendResult st.sendCount with
  | none =>
      retryCheck { st with attempts, sendCount := st.sendCount + 1 }
  | some sig =>
      if skip_confirm then .inr (.ok sig)
      else
        match confirmLoop needsReset env sig st.pollCount CONFIRM_RETRIES with
        | (_, .result r) => .inr r
        | (pc, .reset) =>
            retryCheck { st with attempts := 0, sendCount := st.sendCount + 1, pollCount := pc }
        | (pc, .exhausted) =>
            retryCheck { st with attempts, sendCount := st.sendCount + 1, pollCount := pc }

/-- One iteration of the outer `loop` (lines 101-248): the refresh, then
the send-and-confirm body. -/
def outerIter (needsReset : Nat) (env : SacEnv) (skip_confirm : Bool)
    (st : OuterState) : OuterState ⊕ SacResult :=
  match refreshPhase env st with
  | none => .inr .errBlockhash
  | some st => sendPhase needsReset env skip_confirm st

/-- The outer attempt loop, iterated with fuel (the source loop is
unbounded; every claim is proved at sufficient fuel). -/
def sacLoop (needsReset : Nat) (env : SacEnv) (skip_confirm : Bool) :
    Nat → OuterState → Option SacResult
  | 0, _ => none
  | fuel + 1, st =>
      match outerIter needsReset env skip_confirm st with
      | .inr r => some r
      | .inl st' => sacLoop needsReset env skip_confirm fuel st'

/-- Outcome of `check_balance` (lines 251-267): `aborted` models the
`panic!`, `proceeded` a normal return. -/
inductive BalanceOutcome where
  | aborted
  | proceeded
  deriving DecidableEq, Repr

/-- `check_balance` (lines 251-267): a successful query panics iff
`balance <= sol_to_lamports(MIN_SOL_BALANCE)`; a failing query is logged
and the function returns normally. -/
def check_balance (query : Option Nat) : BalanceOutcome :=
  match query with
  | some balance =>
      if balance ≤ MIN_SOL_BALANCE_LAMPORTS then .aborted else .proceeded
  | none => .proceeded

/-- Overall outcome of `send_and_confirm`: the balance panic or the loop's
result. -/
inductive SacOutcome where
  | panicked
  | result (r : SacResult)
  deriving DecidableEq, Repr

/-- The initial outer state: `attempts = 0` and no endpoint called yet. -/
def initOuterState : OuterState := ⟨0, 0, 0, 0⟩

/-- `send_and_confirm` (lines 47-249): check the balance first (line 56),
then run the attempt loop from `attempts = 0`. -/
def send_and_confirm (needsReset : Nat) (env : SacEnv) (skip_confirm : Bool)
    (fuel : Nat) : Option SacOutcome :=
  match check_balance env.balance with
  | .aborted => some .panicked
  | .proceeded => (sacLoop needsReset env skip_confirm fuel initOuterState).map .result

/-! ## Instruction assembly (src/send_and_confirm.rs lines 59-81) -/

/-- An instruction: the two compute-budget directives or a caller-supplied
instruction (opaque, an id). -/
inductive Ix where
  | cuLimit (cus : Nat)
  | cuPrice (fee : Nat)
  | user (i : Nat)
  deriving DecidableEq, Repr

/-- `ComputeBudget` (lines 37-41). -/
inductive ComputeBudget where
  | dynamic
  | fixed (cus : Nat)
  deriving DecidableEq, Repr

/-- The assembly of `final_ixs` (lines 59-81): start empty; `Dynamic` hits
`todo!()` (a panic, modelled `none`); `Fixed(cus)` pushes
`set_compute_unit_limit(cus)`; then push
`set_compute_unit_price(priority_fee.unwrap_or(0))`; then extend with the
caller's instructions.  Pure: no network or signing effect. -/
def assembleFinalIxs (compute_budget : ComputeBudget) (priority_fee : Option Nat)
    (ixs : List Ix) : Option (List Ix) :=
  let final_ixs : List Ix := []
  match compute_budget with
  | .dynamic => none
  | .fixed cus =>
      let final_ixs := final_ixs ++ [Ix.cuLimit cus]
      let final_ixs := final_ixs ++ [Ix.cuPrice (priority_fee.getD 0)]
      let final_ixs := final_ixs ++ ixs
      some final_ixs

/-! ## Theorems -/

/-- C6: for every caller-supplied instruction list, compute-unit limit and
optional priority fee, the assembled list is exactly the compute-unit-limit
directive, then the compute-unit-price directive holding the priority fee
(0 when absent), then the caller's instructions in their original order;
the assembly is a pure function. -/
theorem assemble_final_ixs_spec (cus : Nat) (priority_fee : Option Nat) (ixs : List Ix) :
    assembleFinalIxs (ComputeBudget.fixed cus) priority_fee ixs =
      some (Ix.cuLimit cus :: Ix.cuPrice (priority_fee.getD 0) :: ixs) ∧
    assembleFinalIxs (ComputeBudget.fixed cus) none ixs =
      some (Ix.cuLimit cus :: Ix.cuPrice 0 :: ixs) :=
  ⟨rfl, rfl⟩

/-- C9: a queried balance at or below the fixed reserve
(`sol_to_lamports(0.005) = 5_000_000` lamports) makes `check_balance`
abort, and `send_and_confirm` then panics whatever the send/poll
environment does — so before any transaction send; a queried balance above
the reserve never aborts. -/
theorem check_balance_gate :
    (∀ bal, bal ≤ MIN_SOL_BALANCE_LAMPORTS → check_balance (some bal) = .aborted) ∧
    (∀ bal, MIN_SOL_BALANCE_LAMPORTS < bal → check_balance (some bal) = .proceeded) ∧
    (∀ needsReset env skip_confirm fuel bal, env.balance = some bal →
      bal ≤ MIN_SOL_BALANCE_LAMPORTS →
      send_and_confirm needsReset env skip_confirm fuel = some .panicked) := by
  refine ⟨fun bal h => ?_, fun bal h => ?_, fun needsReset env skip_confirm fuel bal hbal h => ?_⟩
  · simp [check_balance, h]
  · simp [check_balance, Nat.not_le_of_lt h]
  · simp [send_and_confirm, hbal, check_balance, h]

/-- C9 witness: with a 1000-lamport balance the call panics regardless of a
send environment that would otherwise succeed. -/
theorem check_balance_gate_witness :
    send_and_confirm 6
      ⟨some 1000, fun _ => some 42, fun _ => some [], fun _ => some 1⟩ false 151 =
      some .panicked :=
  check_balance_gate.2.2 6 _ false 151 1000 rfl (by decide)

/-- C10: when the balance query itself errs, `check_balance` returns
normally, and `send_and_confirm` proceeds straight into the sign-and-send
loop with no balance precondition enforced. -/
theorem check_balance_query_error :
    check_balance none = .proceeded ∧
    (∀ needsReset env skip_confirm fuel, env.balance = none →
      send_and_confirm needsReset env skip_confirm fuel =
        (sacLoop needsReset env skip_confirm fuel initOuterState).map SacOutcome.result) := by
  refine ⟨rfl, fun needsReset env skip_confirm fuel hbal => ?_⟩
  simp [send_and_confirm, hbal, check_balance]

/-- C10 witness: with a failing balance query and a first send that is
confirmed at once, the call returns the signature — the sends went ahead. -/
theorem check_balance_query_error_witness :
    send_and_confirm 6
      ⟨none, fun _ => some 42, fun _ => some [some ⟨none, some .confirmed⟩],
        fun _ => some 1⟩ false 3 =
      some (.result (.ok 42)) := by
  rw [check_balance_query_error.2 6 _ false 3 rfl]
  rfl

/-- On a machine whose core ids are `0..n-1`, the filter `id.id < cores`
keeps exactly the first `min cores n` ids. -/
theorem filteredCoreIds_range (cores n : Nat) :
    filteredCoreIds (List.range n) cores = List.range (min cores n) := by
  induction n with
  | zero => simp [filteredCoreIds]
  | succ n ih =>
      unfold filteredCoreIds at ih ⊢
      rw [List.range_succ, List.filter_append, ih]
      by_cases h : n < cores
      · have h1 : min cores n = n := Nat.min_eq_right (Nat.le_of_lt h)
        have h2 : min cores (n + 1) = n + 1 := Nat.min_eq_right h
        simp [h, h1, h2, List.range_succ]
      · have hc : cores ≤ n := Nat.le_of_not_lt h
        have h1 : min cores n = cores := Nat.min_eq_left hc
        have h2 : min cores (n + 1) = cores := Nat.min_eq_left (Nat.le_succ_of_le hc)
        simp [h, h1, h2]

/-- C8 counterexample: on a two-core machine (core ids `[0, 1]`) a request
for 3 workers spawns only 2 threads, not the claimed `worker_count = 3`. -/
theorem find_hash_par_spawn_counterexample :
    numWorkersSpawned [0, 1] 3 = 2 ∧ (2 : Nat) ≠ 3 := by
  decide

/-- C8 (amended): `find_hash_par` spawns one worker per machine core id
below `cores` — `min cores num_cores` workers on a machine with core ids
`0..num_cores-1` — so exactly `cores` workers only when `cores` does not
exceed the machine's cores; requesting more than the machine's cores
triggers the non-fatal `check_num_cores` warning and the search proceeds
with only the machine's cores (the excess nonce ranges go unsearched). -/
theorem find_hash_par_spawn_count :
    (∀ num_cores cores, numWorkersSpawned (List.range num_cores) cores = min cores num_cores) ∧
    (∀ num_cores cores, cores ≤ num_cores →
      numWorkersSpawned (List.range num_cores) cores = cores) ∧
    (∀ num_cores cores, checkNumCoresWarns cores num_cores = decide (num_cores < cores)) := by
  refine ⟨fun n c => ?_, fun n c h => ?_, fun n c => ?_⟩
  · rw [numWorkersSpawned, filteredCoreIds_range, List.length_range]
  · rw [numWorkersSpawned, filteredCoreIds_range, List.length_range, Nat.min_eq_left h]
  · simp [checkNumCoresWarns]

/-- C8 witness: 2 requested workers on a 4-core machine spawn exactly 2
threads and raise no warning. -/
theorem find_hash_par_spawn_count_witness :
    numWorkersSpawned (List.range 4) 2 = 2 ∧ checkNumCoresWarns 2 4 = decide (4 < 2) :=
  ⟨find_hash_par_spawn_count.2.1 4 2 (by decide), find_hash_par_spawn_count.2.2 4 2⟩

/-- Scanning a batch raises the local best difficulty to the maximum of the
old best and the batch's best. -/
theorem scanBatch_difficulty (nonce : Nat) (cands : List Cand) (b : Best) :
    (scanBatch nonce cands b).difficulty = max b.difficulty (batchMax cands) := by
  induction cands generalizing b with
  | nil => simp [scanBatch, batchMax]
  | cons hx rest ih =>
      rw [scanBatch, batchMax, ih]
      by_cases h : hx.difficulty > b.difficulty
      · simp only [if_pos h]
        rw [← Nat.max_assoc, Nat.max_eq_right (Nat.le_of_lt h)]
      · simp only [if_neg h]
        rw [← Nat.max_assoc, Nat.max_eq_left (Nat.le_of_not_lt h)]

/-- A worker exits at an iteration and nonce no smaller than the ones it
started from, with matching offsets. -/
theorem workerLoop_exit_ge (oracle : Nat → List Cand) (elapsed globalRead : Nat → Nat)
    (cutoff_time min_difficulty : Nat) (fuel iter nonce : Nat) (b : Best)
    (i n : Nat) (bb : Best)
    (h : workerLoop oracle elapsed globalRead cutoff_time min_difficulty fuel iter nonce b =
      some (i, n, bb)) :
    nonce ≤ n ∧ iter ≤ i := by
  induction fuel generalizing iter nonce b with
  | zero => simp [workerLoop] at h
  | succ fuel ih =>
      rw [workerLoop] at h
      split at h
      · simp only [Option.some.injEq, Prod.mk.injEq] at h
        obtain ⟨h1, h2, h3⟩ := h
        subst h1; subst h2
        exact ⟨Nat.le_refl _, Nat.le_refl _⟩
      · have := ih _ _ _ h
        exact ⟨Nat.le_of_succ_le this.1, Nat.le_of_succ_le this.2⟩

/-- A worker's final local best difficulty is the maximum of its initial
best and of every batch candidate it evaluated (nonces `nonce .. n`). -/
theorem workerLoop_best_difficulty (oracle : Nat → List Cand)
    (elapsed globalRead : Nat → Nat) (cutoff_time min_difficulty : Nat)
    (fuel iter nonce : Nat) (b : Best) (i n : Nat) (bb : Best)
    (h : workerLoop oracle elapsed globalRead cutoff_time min_difficulty fuel iter nonce b =
      some (i, n, bb)) :
    bb.difficulty = max b.difficulty (rangeOracleMax oracle nonce (n + 1 - nonce)) := by
  induction fuel generalizing iter nonce b with
  | zero => simp [workerLoop] at h
  | succ fuel ih =>
      rw [workerLoop] at h
      split at h
      · simp only [Option.some.injEq, Prod.mk.injEq] at h
        obtain ⟨h1, h2, h3⟩ := h
        subst h1; subst h2; subst h3
        rw [scanBatch_difficulty]
        have heq : nonce + 1 - nonce = 1 := by omega
        rw [heq, rangeOracleMax, rangeOracleMax, Nat.max_comm (batchMax (oracle nonce)) 0,
          Nat.zero_max]
      · have hge := (workerLoop_exit_ge _ _ _ _ _ _ _ _ _ _ _ _ h).1
        rw [ih _ _ _ h, scanBatch_difficulty]
        have h1 : n + 1 - nonce = (n + 1 - (nonce + 1)) + 1 := by omega
        rw [h1, rangeOracleMax, ← Nat.max_assoc]

/-- The join fold's difficulty is the maximum of the accumulator's and the
workers'. -/
theorem joinBest_difficulty (rs : List Best) (acc : Best) :
    (joinBest rs acc).difficulty = max acc.difficulty (maxDifficulty rs) := by
  induction rs generalizing acc with
  | nil => simp [joinBest, maxDifficulty]
  | cons r rest ih =>
      rw [joinBest, maxDifficulty, ih]
      by_cases h : r.difficulty > acc.difficulty
      · simp only [if_pos h]
        rw [← Nat.max_assoc, Nat.max_eq_right (Nat.le_of_lt h)]
      · simp only [if_neg h]
        rw [← Nat.max_assoc, Nat.max_eq_left (Nat.le_of_not_lt h)]

/-- If no worker strictly beats the accumulator, the fold keeps it. -/
theorem joinBest_no_improve (rs : List Best) (acc : Best)
    (h : maxDifficulty rs ≤ acc.difficulty) : joinBest rs acc = acc := by
  induction rs with
  | nil => rfl
  | cons r rest ih =>
      rw [maxDifficulty, Nat.max_le] at h
      rw [joinBest, if_neg (Nat.not_lt_of_le h.1)]
      exact ih h.2

/-- If some worker strictly beats the accumulator, the fold returns the
first list element attaining the maximum difficulty. -/
theorem joinBest_first_max (rs : List Best) (acc : Best)
    (h : acc.difficulty < maxDifficulty rs) :
    ∃ l₁ r l₂, rs = l₁ ++ r :: l₂ ∧ joinBest rs acc = r ∧
      r.difficulty = maxDifficulty rs ∧
      ∀ r' ∈ l₁, r'.difficulty < maxDifficulty rs := by
  induction rs generalizing acc with
  | nil => simp [maxDifficulty] at h
  | cons x rest ih =>
      by_cases hx : maxDifficulty rest ≤ x.difficulty
      · have hmax : maxDifficulty (x :: rest) = x.difficulty := by
          rw [maxDifficulty, Nat.max_eq_left hx]
        refine ⟨[], x, rest, rfl, ?_, by rw [hmax], by simp⟩
        rw [hmax] at h
        rw [joinBest, if_pos h]
        exact joinBest_no_improve rest x hx
      · have hx' : x.difficulty < maxDifficulty rest := Nat.lt_of_not_le hx
        have hmax : maxDifficulty (x :: rest) = maxDifficulty rest := by
          rw [maxDifficulty, Nat.max_eq_right (Nat.le_of_lt hx')]
        rw [hmax] at h ⊢
        have hacc : (if x.difficulty > acc.difficulty then x else acc).difficulty <
            maxDifficulty rest := by
          by_cases hb : x.difficulty > acc.difficulty
          · rw [if_pos hb]; exact hx'
          · rw [if_neg hb]; exact h
        obtain ⟨l₁, r, l₂, hsplit, hjoin, hd, hlt⟩ := ih _ hacc
        refine ⟨x :: l₁, r, l₂, by rw [hsplit]; rfl, ?_, hd, ?_⟩
        · rw [joinBest, hjoin]
        · intro r' hr'
          rcases List.mem_cons.mp hr' with h' | h'
          · rw [h']; exact hx'
          · exact hlt r' h'

/-- C2 counterexample: a single worker whose final local best is
`(nonce 5, difficulty 0, digest 7)` ties the aggregation seed's difficulty
0, so the seed `(0, 0, default)` wins and the returned Solution carries
digest 0 and nonce 0 — not the first (only) worker's digest 7 and nonce 5
as the claim's full-tie rule requires. -/
theorem find_hash_par_tie_counterexample :
    findHashParSolution [⟨5, 0, 7⟩] = (0, 0) ∧ ((0, 0) : Nat × Nat) ≠ (7, 5) := by
  decide

/-- C2 (amended): each worker's final local best difficulty is the maximum
over every batch candidate it evaluated; the aggregated best difficulty
equals the true maximum over all workers; when that maximum is positive
the Solution carries the first worker attaining it (strict `>` aggregation,
first-wins on ties); but when every worker's best difficulty is 0 the
aggregation keeps its seed `(nonce 0, difficulty 0, default digest)`,
which need not be any worker's result. -/
theorem find_hash_par_aggregation :
    (∀ oracle elapsed globalRead cutoff_time min_difficulty fuel iter nonce b i n bb,
      workerLoop oracle elapsed globalRead cutoff_time min_difficulty fuel iter nonce b =
        some (i, n, bb) →
      bb.difficulty = max b.difficulty (rangeOracleMax oracle nonce (n + 1 - nonce))) ∧
    (∀ rs, (aggregateBest rs).difficulty = maxDifficulty rs) ∧
    (∀ rs, 0 < maxDifficulty rs →
      ∃ l₁ r l₂, rs = l₁ ++ r :: l₂ ∧ aggregateBest rs = r ∧
        findHashParSolution rs = (r.hash, r.nonce) ∧
        r.difficulty = maxDifficulty rs ∧
        ∀ r' ∈ l₁, r'.difficulty < maxDifficulty rs) ∧
    (∀ rs, maxDifficulty rs = 0 → aggregateBest rs = ⟨0, 0, 0⟩) := by
  refine ⟨fun oracle elapsed globalRead ct md fuel iter nonce b i n bb h =>
      workerLoop_best_difficulty oracle elapsed globalRead ct md fuel iter nonce b i n bb h,
    fun rs => ?_, fun rs h => ?_, fun rs h => ?_⟩
  · rw [aggregateBest, joinBest_difficulty, Nat.zero_max]
  · obtain ⟨l₁, r, l₂, hsplit, hjoin, hd, hlt⟩ := joinBest_first_max rs ⟨0, 0, 0⟩ h
    exact ⟨l₁, r, l₂, hsplit, hjoin,
      by rw [findHashParSolution, aggregateBest, hjoin], hd, hlt⟩
  · exact joinBest_no_improve rs ⟨0, 0, 0⟩ (Nat.le_of_eq h)

/-- C2 witness: two workers tie at positive difficulty 3; the first one
(nonce 5, digest 7) wins and its difficulty is the true maximum. -/
theorem find_hash_par_aggregation_witness :
    (aggregateBest [⟨5, 3, 7⟩, ⟨9, 3, 8⟩]).difficulty = maxDifficulty [⟨5, 3, 7⟩, ⟨9, 3, 8⟩] ∧
    ∃ l₁ r l₂, ([⟨5, 3, 7⟩, ⟨9, 3, 8⟩] : List Best) = l₁ ++ r :: l₂ ∧
      aggregateBest [⟨5, 3, 7⟩, ⟨9, 3, 8⟩] = r ∧
      findHashParSolution [⟨5, 3, 7⟩, ⟨9, 3, 8⟩] = (r.hash, r.nonce) ∧
      r.difficulty = maxDifficulty [⟨5, 3, 7⟩, ⟨9, 3, 8⟩] ∧
      ∀ r' ∈ l₁, r'.difficulty < maxDifficulty [⟨5, 3, 7⟩, ⟨9, 3, 8⟩] :=
  ⟨find_hash_par_aggregation.2.1 [⟨5, 3, 7⟩, ⟨9, 3, 8⟩],
   find_hash_par_aggregation.2.2.1 [⟨5, 3, 7⟩, ⟨9, 3, 8⟩] (by decide)⟩

/-- C1: a worker terminates only at a check point — its exit nonce is
divisible by 100, its elapsed time has reached `cutoff_time` (so it never
exits before the cutoff elapses) and the shared global best difficulty it
read has reached `min_difficulty` (first conjunct); at a check point where
all of elapsed-cutoff and global-minimum hold the worker breaks
immediately (second conjunct); in every other situation — in particular
past the deadline while the global best is still below `min_difficulty` —
it scans the batch and continues with the next nonce (third conjunct). -/
theorem worker_termination :
    (∀ oracle elapsed globalRead cutoff_time min_difficulty fuel iter nonce b i n bb,
      workerLoop oracle elapsed globalRead cutoff_time min_difficulty fuel iter nonce b =
        some (i, n, bb) →
      n % 100 = 0 ∧ cutoff_time ≤ elapsed i ∧ min_difficulty ≤ globalRead i) ∧
    (∀ oracle elapsed globalRead cutoff_time min_difficulty fuel iter nonce b,
      nonce % 100 = 0 → cutoff_time ≤ elapsed iter → min_difficulty ≤ globalRead iter →
      workerLoop oracle elapsed globalRead cutoff_time min_difficulty (fuel + 1) iter nonce b =
        some (iter, nonce, scanBatch nonce (oracle nonce) b)) ∧
    (∀ oracle elapsed globalRead cutoff_time min_difficulty fuel iter nonce b,
      ¬(nonce % 100 = 0 ∧ cutoff_time ≤ elapsed iter ∧ min_difficulty ≤ globalRead iter) →
      workerLoop oracle elapsed globalRead cutoff_time min_difficulty (fuel + 1) iter nonce b =
        workerLoop oracle elapsed globalRead cutoff_time min_difficulty fuel (iter + 1)
          (nonce + 1) (scanBatch nonce (oracle nonce) b)) := by
  refine ⟨fun oracle elapsed globalRead ct md fuel => ?_,
    fun oracle elapsed globalRead ct md fuel iter nonce b h1 h2 h3 => ?_,
    fun oracle elapsed globalRead ct md fuel iter nonce b hneg => ?_⟩
  · induction fuel with
    | zero => intro iter nonce b i n bb h; simp [workerLoop] at h
    | succ fuel ih =>
        intro iter nonce b i n bb h
        rw [workerLoop] at h
        split at h
        · rename_i hcond
          simp only [Option.some.injEq, Prod.mk.injEq] at h
          obtain ⟨h1, h2, _⟩ := h
          subst h1; subst h2
          exact hcond
        · exact ih _ _ _ _ _ _ h
  · rw [workerLoop, if_pos ⟨h1, h2, h3⟩]
  · rw [workerLoop, if_neg hneg]

/-- C1 witness: a worker started at nonce 100 in an environment that is
past a 3-second cutoff with global best 7 ≥ minimum 2 exits at that very
check point; at nonce 101 the same conditions do not make it exit; and a
terminated run witnesses the divisibility/cutoff/minimum facts. -/
theorem worker_termination_witness :
    ((100 : Nat) % 100 = 0 ∧ (3 : Nat) ≤ 5 ∧ (2 : Nat) ≤ 7) ∧
    workerLoop (fun _ => []) (fun _ => 5) (fun _ => 7) 3 2 1 0 100 ⟨100, 0, 0⟩ =
      some (0, 100, ⟨100, 0, 0⟩) ∧
    workerLoop (fun _ => []) (fun _ => 5) (fun _ => 7) 3 2 1 0 101 ⟨101, 0, 0⟩ =
      workerLoop (fun _ => []) (fun _ => 5) (fun _ => 7) 3 2 0 1 102 ⟨101, 0, 0⟩ :=
  ⟨worker_termination.1 (fun _ => []) (fun _ => 5) (fun _ => 7) 3 2 1 0 100 ⟨100, 0, 0⟩
      0 100 ⟨100, 0, 0⟩ (by decide),
   worker_termination.2.1 (fun _ => []) (fun _ => 5) (fun _ => 7) 3 2 0 0 100 ⟨100, 0, 0⟩
      (by decide) (by decide) (by decide),
   worker_termination.2.2 (fun _ => []) (fun _ => 5) (fun _ => 7) 3 2 0 0 101 ⟨101, 0, 0⟩
      (by decide)⟩

/-- C3: the `NeedsReset` custom code is the only error classification that
restarts rather than terminates (first conjunct); a status carrying it
makes the scan break out (second conjunct); the confirm loop is then
abandoned at that very poll, whatever polls remained (third conjunct); and
the outer iteration continues with the attempt counter reset to exactly 0
— whatever its prior value — so the next cycle's refresh-cadence check
observes 0 and re-signs (fourth conjunct). -/
theorem needs_reset_restarts (needsReset : Nat) :
    (∀ e, classifyStatusErr needsReset e = .reset ↔
      e = .instruction (.custom needsReset)) ∧
    (∀ conf rest,
      scanStatuses needsReset
        (some ⟨some (.instruction (.custom needsReset)), conf⟩ :: rest) = .reset) ∧
    (∀ env sig pc remaining statuses,
      env.pollResult pc = some statuses → scanStatuses needsReset statuses = .reset →
      confirmLoop needsReset env sig pc (remaining + 1) = (pc + 1, .reset)) ∧
    (∀ env st sig pc,
      (resignDue st.attempts = true → ∃ h, env.blockhashResult st.bhCount = some h) →
      env.sendResult st.sendCount = some sig →
      confirmLoop needsReset env sig st.pollCount CONFIRM_RETRIES = (pc, .reset) →
      ∃ st', outerIter needsReset env false st = .inl st' ∧
        st'.attempts = 0 ∧ resignDue st'.attempts = true ∧
        st'.sendCount = st.sendCount + 1) := by
  refine ⟨fun e => ?_, fun conf rest => ?_, fun env sig pc remaining statuses hpoll hscan => ?_,
    fun env st sig pc hbh hsend hconf => ?_⟩
  · constructor
    · intro h
      match e with
      | .instruction (.custom code) =>
          rw [classifyStatusErr] at h
          split at h
          · rename_i hc; rw [hc]
          · exact absurd h (by simp)
      | .instruction .nonCustom => exact absurd h (by simp [classifyStatusErr])
      | .nonInstruction => exact absurd h (by simp [classifyStatusErr])
    · intro h
      subst h
      simp [classifyStatusErr]
  · simp [scanStatuses, classifyStatusErr]
  · simp [confirmLoop, hpoll, hscan]
  · cases hre : resignDue st.attempts with
    | false =>
        refine ⟨⟨0, st.sendCount + 1, pc, st.bhCount⟩, ?_, rfl, rfl, rfl⟩
        simp [outerIter, refreshPhase, sendPhase, hre, hsend, hconf, retryCheck,
          GATEWAY_RETRIES]
    | true =>
        obtain ⟨h, hh⟩ := hbh hre
        refine ⟨⟨0, st.sendCount + 1, pc, st.bhCount + 1⟩, ?_, rfl, rfl, rfl⟩
        simp [outerIter, refreshPhase, sendPhase, hre, hh, hsend, hconf, retryCheck,
          GATEWAY_RETRIES]

/-- C3 witness: a poll that reports the `NeedsReset` code (here value 6) on
attempt 37 makes the iteration continue with the attempt counter at 0, due
for re-signing. -/
theorem needs_reset_restarts_witness :
    ∃ st', outerIter 6 ⟨none, fun _ => some 42, fun _ => some [some ⟨some
        (.instruction (.custom 6)), none⟩], fun _ => some 1⟩ false ⟨37, 5, 5, 2⟩ = .inl st' ∧
      st'.attempts = 0 ∧ resignDue st'.attempts = true ∧ st'.sendCount = 5 + 1 :=
  (needs_reset_restarts 6).2.2.2 _ ⟨37, 5, 5, 2⟩ 42 6
    (fun hre => by simp [resignDue] at hre) rfl (by decide)

/-- C4: every status error other than the `NeedsReset` custom code — a
custom instruction error with a different code, a non-custom instruction
error, or a non-instruction transaction error — classifies as fatal (first
three conjuncts); a scanned status carrying it yields that fatal result
(fourth conjunct); the confirm loop then returns it at that very poll,
performing none of its remaining polls (fifth conjunct); and the whole
call returns it at once, with no further outer-loop retries however much
fuel remains (sixth conjunct). -/
theorem other_errors_fatal (needsReset : Nat) :
    (∀ code, code ≠ needsReset →
      classifyStatusErr needsReset (.instruction (.custom code)) =
        .fatal (.errCustomIx code)) ∧
    (classifyStatusErr needsReset (.instruction .nonCustom) = .fatal .errNonCustomIx) ∧
    (classifyStatusErr needsReset .nonInstruction = .fatal .errNonInstruction) ∧
    (∀ e r conf rest, classifyStatusErr needsReset e = .fatal r →
      scanStatuses needsReset (some ⟨some e, conf⟩ :: rest) = .fatal r) ∧
    (∀ env sig pc remaining statuses r,
      env.pollResult pc = some statuses → scanStatuses needsReset statuses = .fatal r →
      confirmLoop needsReset env sig pc (remaining + 1) = (pc + 1, .result r)) ∧
    (∀ env st sig pc r fuel,
      (resignDue st.attempts = true → ∃ h, env.blockhashResult st.bhCount = some h) →
      env.sendResult st.sendCount = some sig →
      confirmLoop needsReset env sig st.pollCount CONFIRM_RETRIES = (pc, .result r) →
      sacLoop needsReset env false (fuel + 1) st = some r) := by
  refine ⟨fun code hc => ?_, rfl, rfl, fun e r conf rest hcl => ?_,
    fun env sig pc remaining statuses r hpoll hscan => ?_,
    fun env st sig pc r fuel hbh hsend hconf => ?_⟩
  · simp [classifyStatusErr, hc]
  · rw [scanStatuses]
    simp only [hcl]
  · simp [confirmLoop, hpoll, hscan]
  · rw [sacLoop]
    cases hre : resignDue st.attempts with
    | false => simp [outerIter, refreshPhase, sendPhase, hre, hsend, hconf]
    | true =>
        obtain ⟨h, hh⟩ := hbh hre
        simp [outerIter, refreshPhase, sendPhase, hre, hh, hsend, hconf]

/-- C4 witness: a different custom code (9 ≠ 6) observed on poll attempt 3
of 8 ends the confirm loop at once and the call returns that error with
plenty of fuel left. -/
theorem other_errors_fatal_witness :
    classifyStatusErr 6 (.instruction (.custom 9)) = .fatal (.errCustomIx 9) ∧
    confirmLoop 6 ⟨none, fun _ => some 42, fun k => if k < 2 then some [] else
        some [some ⟨some (.instruction (.custom 9)), none⟩], fun _ => some 1⟩ 42 2 6 =
      (3, .result (.errCustomIx 9)) ∧
    sacLoop 6 ⟨none, fun _ => some 42, fun k => if k < 2 then some [] else
        some [some ⟨some (.instruction (.custom 9)), none⟩], fun _ => some 1⟩ false 100
      ⟨3, 0, 0, 0⟩ = some (.errCustomIx 9) :=
  ⟨(other_errors_fatal 6).1 9 (by decide),
   (other_errors_fatal 6).2.2.2.2.1 _ 42 2 5 _ (.errCustomIx 9) rfl (by decide),
   (other_errors_fatal 6).2.2.2.2.2 _ ⟨3, 0, 0, 0⟩ 42 3 (.errCustomIx 9) 99
     (fun hre => by simp [resignDue] at hre) rfl (by decide)⟩

/-- Under an environment whose confirm loop never reaches a terminal or
reset outcome and whose blockhash fetches succeed, one outer iteration is
always the retry tail applied to a state with the attempt counter bumped
by exactly one. -/
theorem sendPhase_transient (needsReset : Nat) (env : SacEnv)
    (htrans : ∀ sig pc n, (confirmLoop needsReset env sig pc n).2 = .exhausted)
    (st : OuterState) :
    ∃ st', st'.attempts = st.attempts + 1 ∧
      sendPhase needsReset env false st = retryCheck st' := by
  cases hsend : env.sendResult st.sendCount with
  | none =>
      refine ⟨⟨st.attempts + 1, st.sendCount + 1, st.pollCount, st.bhCount⟩, rfl, ?_⟩
      simp [sendPhase, hsend]
  | some sig =>
      have hc := htrans sig st.pollCount CONFIRM_RETRIES
      rcases hcv : confirmLoop needsReset env sig st.pollCount CONFIRM_RETRIES with ⟨pc, out⟩
      rw [hcv] at hc
      simp only at hc
      subst hc
      refine ⟨⟨st.attempts + 1, st.sendCount + 1, pc, st.bhCount⟩, rfl, ?_⟩
      simp [sendPhase, hsend, hcv]

/-- Under a transient environment the refresh phase succeeds and keeps the
attempt counter. -/
theorem refreshPhase_ok (env : SacEnv)
    (hbh : ∀ k, ∃ h, env.blockhashResult k = some h) (st : OuterState) :
    ∃ st1, refreshPhase env st = some st1 ∧ st1.attempts = st.attempts := by
  cases hre : resignDue st.attempts with
  | false =>
      refine ⟨st, ?_, rfl⟩
      simp [refreshPhase, hre]
  | true =>
      obtain ⟨h, hh⟩ := hbh st.bhCount
      refine ⟨⟨st.attempts, st.sendCount, st.pollCount, st.bhCount + 1⟩, ?_, rfl⟩
      simp [refreshPhase, hre, hh]

/-- Under an environment whose confirm loop never reaches a terminal or
reset outcome and whose blockhash fetches succeed, one outer iteration is
always the retry tail applied to a state with the attempt counter bumped
by exactly one. -/
theorem outerIter_transient (needsReset : Nat) (env : SacEnv)
    (htrans : ∀ sig pc n, (confirmLoop needsReset env sig pc n).2 = .exhausted)
    (hbh : ∀ k, ∃ h, env.blockhashResult k = some h) (st : OuterState) :
    ∃ st', st'.attempts = st.attempts + 1 ∧
      outerIter needsReset env false st = retryCheck st' := by
  obtain ⟨st1, href, hatt⟩ := refreshPhase_ok env hbh st
  obtain ⟨st', h1, h2⟩ := sendPhase_transient needsReset env htrans st1
  refine ⟨st', by rw [h1, hatt], ?_⟩
  rw [outerIter, href]
  exact h2

/-- C5: `GATEWAY_RETRIES` is 150 and, in every execution whose failures are
all transient — the confirm loop always falls through with no `NeedsReset`
reset and no terminal status, and the blockhash refreshes succeed — the
outer loop terminates (with one unit of fuel per attempt) and returns
exactly the custom "Max retries" error once the attempt counter exceeds
`GATEWAY_RETRIES`; it never hangs silently. -/
theorem gateway_retries_cap :
    GATEWAY_RETRIES = 150 ∧
    ∀ needsReset env,
      (∀ sig pc n, (confirmLoop needsReset env sig pc n).2 = ConfirmOutcome.exhausted) →
      (∀ k, ∃ h, env.blockhashResult k = some h) →
      ∀ fuel st, 1 ≤ fuel → GATEWAY_RETRIES < st.attempts + fuel →
        sacLoop needsReset env false fuel st = some .errMaxRetries := by
  refine ⟨rfl, fun needsReset env htrans hbh => ?_⟩
  intro fuel
  induction fuel with
  | zero => intro st h1 h2; omega
  | succ fuel ih =>
      intro st h1 h2
      obtain ⟨st', ha, hout⟩ := outerIter_transient needsReset env htrans hbh st
      rw [sacLoop, hout]
      by_cases hc : st'.attempts > GATEWAY_RETRIES
      · simp [retryCheck, hc]
      · simp only [retryCheck, if_neg hc]
        refine ih st' ?_ ?_
        · simp only [GATEWAY_RETRIES] at hc h2; omega
        · simp only [GATEWAY_RETRIES] at hc h2 ⊢; omega

/-- C5 witness: with every send failing (and polls never reached), 151
units of fuel from a fresh state end in the "Max retries" error. -/
theorem gateway_retries_cap_witness :
    sacLoop 6 ⟨none, fun _ => none, fun _ => none, fun _ => some 1⟩ false 151 initOuterState =
      some .errMaxRetries :=
  gateway_retries_cap.2 6 ⟨none, fun _ => none, fun _ => none, fun _ => some 1⟩
    (fun sig pc n => by
      induction n generalizing pc with
      | zero => rfl
      | succ n ih => exact ih (pc + 1))
    (fun k => ⟨1, rfl⟩) 151 initOuterState (by decide) (by decide)

/-- Two distinct equal-width blocks laid out as `base + i * w` never share
an element. -/
theorem inBlock_disjoint (base w : Nat) :
    ∀ i j x, i ≠ j → inBlock (base + i * w) w x → ¬ inBlock (base + j * w) w x := by
  have key : ∀ i j x, i < j → inBlock (base + i * w) w x →
      ¬ inBlock (base + j * w) w x := by
    intro i j x hij ⟨hi1, hi2⟩ ⟨hj1, hj2⟩
    have h1 : (i + 1) * w ≤ j * w := Nat.mul_le_mul_right w hij
    rw [Nat.succ_mul] at h1
    omega
  intro i j x hij hi hj
  rcases Nat.lt_or_ge i j with h | h
  · exact key i j x h hi hj
  · have h' : j < i := Nat.lt_of_le_of_ne h (fun e => hij e.symm)
    exact key j i x h' hj hi

/-- The blocks `base + n * w` for `n < cores` cover exactly
`[base, base + cores * w)`. -/
theorem inBlock_cover (base w cores x : Nat) :
    (∃ n, n < cores ∧ inBlock (base + n * w) w x) ↔
      base ≤ x ∧ x < base + cores * w := by
  constructor
  · rintro ⟨n, hn, h1, h2⟩
    have h3 : (n + 1) * w ≤ cores * w := Nat.mul_le_mul_right w hn
    rw [Nat.succ_mul] at h3
    omega
  · rintro ⟨h1, h2⟩
    rcases Nat.eq_zero_or_pos w with hw | hw
    · subst hw; omega
    · refine ⟨(x - base) / w, ?_, ?_, ?_⟩
      · exact (Nat.div_lt_iff_lt_mul hw).mpr (by omega)
      · have h3 := Nat.div_mul_le_self (x - base) w
        omega
      · have h4 := Nat.div_add_mod (x - base) w
        have h5 := Nat.mod_lt (x - base) hw
        rw [Nat.mul_comm w ((x - base) / w)] at h4
        omega

/-- C7: with `cores ≥ 1` (and, pooled, `total_participants ≥ 1` and a
member index below it), worker `n`'s starting nonce is
`(u64::MAX / cores) * n` in solo mode and
`(u64::MAX / total_participants) * member_index +
n * ((u64::MAX / total_participants) / cores)` in pooled mode, with no
saturation (first two conjuncts); the per-worker width-sized blocks are
pairwise disjoint in either mode (third and fifth conjuncts) and cover the
intended space — `[0, cores * (u64::MAX / cores))` of the full 64-bit range
in solo mode, and the member's sub-interval
`[left_bound, left_bound + cores * range_per_core)` in pooled mode (fourth
and sixth conjuncts). -/
theorem nonce_partitioning :
    (∀ cores n, 1 ≤ cores → n < cores →
      (soloNonceIndices cores)[n]? = some (U64MAX / cores * n)) ∧
    (∀ tp mi cores n, 1 ≤ tp → mi < tp → 1 ≤ cores → n < cores →
      (poolNonceIndices tp mi cores)[n]? =
        some (U64MAX / tp * mi + n * (U64MAX / tp / cores))) ∧
    (∀ cores i j x, i ≠ j →
      inBlock (U64MAX / cores * i) (U64MAX / cores) x →
      ¬ inBlock (U64MAX / cores * j) (U64MAX / cores) x) ∧
    (∀ cores x,
      (∃ n, n < cores ∧ inBlock (U64MAX / cores * n) (U64MAX / cores) x) ↔
        x < cores * (U64MAX / cores)) ∧
    (∀ tp mi cores i j x, i ≠ j →
      inBlock (U64MAX / tp * mi + i * (U64MAX / tp / cores)) (U64MAX / tp / cores) x →
      ¬ inBlock (U64MAX / tp * mi + j * (U64MAX / tp / cores)) (U64MAX / tp / cores) x) ∧
    (∀ tp mi cores x,
      (∃ n, n < cores ∧
        inBlock (U64MAX / tp * mi + n * (U64MAX / tp / cores)) (U64MAX / tp / cores) x) ↔
        U64MAX / tp * mi ≤ x ∧
          x < U64MAX / tp * mi + cores * (U64MAX / tp / cores)) := by
  have zeroBlock : ∀ w k, (0 : Nat) + k * w = w * k := fun w k => by
    rw [Nat.zero_add, Nat.mul_comm]
  refine ⟨fun cores n h1 hn => ?_, fun tp mi cores n h1 hmi h2 hn => ?_,
    fun cores i j x hij hi hj => ?_, fun cores x => ?_,
    fun tp mi cores i j x hij => inBlock_disjoint _ _ i j x hij,
    fun tp mi cores x => inBlock_cover _ _ cores x⟩
  · have hle : U64MAX / cores * n ≤ U64MAX :=
      le_trans (Nat.mul_le_mul_left _ (Nat.le_of_lt hn)) (Nat.div_mul_le_self U64MAX cores)
    simp [soloNonceIndices, List.getElem?_map, List.getElem?_range hn, satMul64,
      Nat.min_eq_left hle]
  · have hle : U64MAX / tp * mi ≤ U64MAX :=
      le_trans (Nat.mul_le_mul_left _ (Nat.le_of_lt hmi)) (Nat.div_mul_le_self U64MAX tp)
    simp [poolNonceIndices, List.getElem?_map, List.getElem?_range hn, satMul64,
      Nat.min_eq_left hle]
  · rw [← zeroBlock (U64MAX / cores) i] at hi
    rw [← zeroBlock (U64MAX / cores) j] at hj
    exact inBlock_disjoint 0 (U64MAX / cores) i j x hij hi hj
  · have h := inBlock_cover 0 (U64MAX / cores) cores x
    simp only [Nat.zero_add, Nat.zero_le, true_and] at h
    constructor
    · rintro ⟨n, hn, hb⟩
      refine h.mp ⟨n, hn, ?_⟩
      rwa [Nat.mul_comm] at hb
    · intro hx
      obtain ⟨n, hn, hb⟩ := h.mpr hx
      refine ⟨n, hn, ?_⟩
      rwa [Nat.mul_comm] at hb

/-- C7 witness: concrete instances — 3 solo workers' third start, a pooled
member 1 of 4 with 2 workers, and disjointness of two concrete blocks in
each mode at the point 5. -/
theorem nonce_partitioning_witness :
    (soloNonceIndices 3)[2]? = some (U64MAX / 3 * 2) ∧
    (poolNonceIndices 4 1 2)[1]? = some (U64MAX / 4 * 1 + 1 * (U64MAX / 4 / 2)) ∧
    ¬ inBlock (U64MAX / 3 * 1) (U64MAX / 3) 5 ∧
    ¬ inBlock (U64MAX / 4 * 1 + 1 * (U64MAX / 4 / 2)) (U64MAX / 4 / 2)
      (U64MAX / 4 * 1) :=
  ⟨nonce_partitioning.1 3 2 (by decide) (by decide),
   nonce_partitioning.2.1 4 1 2 1 (by decide) (by decide) (by decide) (by decide),
   nonce_partitioning.2.2.1 3 0 1 5 (by decide) ⟨by decide, by decide⟩,
   nonce_partitioning.2.2.2.2.1 4 1 2 0 1 (U64MAX / 4 * 1) (by decide)
     ⟨by decide, by decide⟩⟩

end Luckycoin
